import Mathlib

/-!
Shallow embedding of the rustmandelbrot renderer (src/main.rs).

Modelling conventions:
- Rust f64 values are modelled as exact rationals (ℚ).  None of the
  verified properties depend on rounding, and the source performs only
  field arithmetic and comparisons on f64 apart from the sine call.
- The host f64 sine function is passed explicitly as a parameter
  (sinf : ℚ → ℚ) to the colorizer; theorems that need facts about sine
  (sin 0 = 0, abs of sine bounded by 1) take them as hypotheses.
- Rust u8 and u32 values are modelled as Nat; i16 casts and u8 casts are
  modelled on Int with explicit saturation and modulo 256, matching the
  saturating float-to-int cast semantics and wrapping int-to-int cast
  semantics of release-mode Rust.
- The imperative pixel loop (a Vec extended 3 bytes per pixel, row-major)
  is modelled as nested flatMap over List.range.
-/

namespace Mandel

/-- RGB color triple, modelling the Rust type with three u8 entries
(index 0 = r, index 1 = g, index 2 = b). -/
structure Color where
  r : Nat
  g : Nat
  b : Nat
deriving DecidableEq, Repr

/-- The three channels are in u8 range. In Rust this is enforced by the
u8 type itself; in the Nat model it is an explicit side condition. -/
def Color.isByte (c : Color) : Prop := c.r < 256 ∧ c.g < 256 ∧ c.b < 256

instance (c : Color) : Decidable c.isByte := by
  unfold Color.isByte; infer_instance

/-- The 3 bytes of a color in the order they are appended to the pixel
buffer (struct field order r, g, b). -/
def Color.toList (c : Color) : List Nat := [c.r, c.g, c.b]

/-- The Config struct from src/main.rs (field for field; the f64 fields
become ℚ, the u128 iteration count and u32 dimensions become Nat). -/
structure Config where
  x : ℚ
  y : ℚ
  zoom : ℚ
  iterations : Nat
  width : Nat
  height : Nat
  mult : ℚ
  outside_color : Color
  inside_color : Color
  second_color : Color
  filename : String

/-- The Image struct from src/main.rs: dimensions plus the raw byte
buffer (data : Vec of u8, modelled as List Nat). -/
structure Image where
  width : Nat
  height : Nat
  data : List Nat

/-- The local closure inside pixel_distance:
distance = |v0, v1| v0*v0 + v1*v1 (squared magnitude). -/
def distance (v0 v1 : ℚ) : ℚ := v0 * v0 + v1 * v1

/-- The loop body of pixel_distance, with explicit fuel.  The Rust loop
is for i in 0..iterations; fuel counts the remaining iterations, so the
invariant fuel + i = iterations holds at every entry.  Each iteration
computes temp_z = z_r*z_r + x - z_i*z_i, then z_i = 2*z_r*z_i + y (with
the old z_r), then z_r = temp_z, and tests distance z_r z_i > 4. -/
def pixelDistanceGo (iterations : Nat) (x y : ℚ) :
    Nat → Nat → ℚ → ℚ → Bool × ℚ
  | 0, _, z_r, z_i => (true, distance z_r z_i)
  | fuel + 1, i, z_r, z_i =>
    let temp_z := z_r * z_r + x - z_i * z_i
    let z_i2 := 2 * z_r * z_i + y
    let z_r2 := temp_z
    if distance z_r2 z_i2 > 4 then
      (false, (i : ℚ) / (iterations : ℚ))
    else
      pixelDistanceGo iterations x y fuel (i + 1) z_r2 z_i2

/-- fn pixel_distance(iterations, x, y) -> (bool, f64) from src/main.rs:
the escape-time evaluator, starting from z_r = z_i = 0. -/
def pixel_distance (iterations : Nat) (x y : ℚ) : Bool × ℚ :=
  pixelDistanceGo iterations x y iterations 0 0 0

/-- One step of the escape-time recurrence as the source performs it:
new real part from the old z_r, x and the old z_i; new imaginary part
from the old z_r, old z_i and y. -/
def step (x y : ℚ) (z : ℚ × ℚ) : ℚ × ℚ :=
  (z.1 * z.1 + x - z.2 * z.2, 2 * z.1 * z.2 + y)

/-- The orbit of the recurrence: orbit x y n is (z_r, z_i) after n loop
iterations, starting from (0, 0). -/
def orbit (x y : ℚ) : Nat → ℚ × ℚ
  | 0 => (0, 0)
  | n + 1 => step x y (orbit x y n)

/-- Squared magnitude of an orbit point. -/
def sqMag (z : ℚ × ℚ) : ℚ := distance z.1 z.2

/-- Truncation toward zero of a rational, the rounding used by a Rust
float-to-int cast before saturation. -/
def ratTrunc (q : ℚ) : Int := if 0 ≤ q then ⌊q⌋ else ⌈q⌉

/-- A Rust f64-to-i16 cast (e.g. the cast applied to the scaled channel
delta in lerp): truncate toward zero, saturating at the i16 bounds. -/
def f64ToI16 (q : ℚ) : Int := max (-32768) (min 32767 (ratTrunc q))

/-- The per-channel value computed inside v_lerp before the final u8
cast: c0[n] as i16 + ((c1[n] as i16 - c0[n] as i16) as f64 * amount) as
i16, kept as an unbounded Int. -/
def vLerpInt (a b : Nat) (amount : ℚ) : Int :=
  (a : Int) + f64ToI16 ((((b : Int) - (a : Int) : Int) : ℚ) * amount)

/-- The local closure v_lerp inside lerp: the per-channel value followed
by the wrapping as u8 cast (the i16 addition wraps modulo 2^16 in
release mode and the u8 cast reduces modulo 256; their composition is
reduction modulo 256). -/
def v_lerp (a b : Nat) (amount : ℚ) : Nat :=
  (vLerpInt a b amount % 256).toNat

/-- fn lerp(c0, c1, amount) -> [u8; 3] from src/main.rs: each channel
interpolated independently. -/
def lerp (c0 c1 : Color) (amount : ℚ) : Color :=
  ⟨v_lerp c0.r c1.r amount, v_lerp c0.g c1.g amount, v_lerp c0.b c1.b amount⟩

/-- The fraction block inside mandel_pixel: current = sin(distance *
mult); if current > 1.0 then 1.0 else current.abs().  sinf is the host
sine. -/
def fraction_of (sinf : ℚ → ℚ) (mult dist : ℚ) : ℚ :=
  let current := sinf (dist * mult)
  if current > 1 then 1 else |current|

/-- fn mandel_pixel(config, x, y) -> [u8; 3] from src/main.rs: the
colorizer for one plane point. -/
def mandel_pixel (sinf : ℚ → ℚ) (config : Config) (x y : ℚ) : Color :=
  let res := pixel_distance config.iterations x y
  let inside := res.1
  let dist := res.2
  let fraction := fraction_of sinf config.mult dist
  let inside_color := lerp config.inside_color config.second_color fraction
  if inside then
    inside_color
  else
    lerp config.outside_color inside_color dist

/-- The coordinate mapping computed inside the pixel loop of fn
mandelbrot: offset = zoom/2, plane x = config.x - offset + zoom * (px /
width), plane y = config.y - offset + zoom * (py / height). -/
def pixelPoint (config : Config) (px py : Nat) : ℚ × ℚ :=
  (config.x - config.zoom / 2 + config.zoom * ((px : ℚ) / (config.width : ℚ)),
   config.y - config.zoom / 2 + config.zoom * ((py : ℚ) / (config.height : ℚ)))

/-- The color produced for pixel column px, row py: coordinate mapper
followed by mandel_pixel. -/
def pixelColor (sinf : ℚ → ℚ) (config : Config) (px py : Nat) : Color :=
  mandel_pixel sinf config (pixelPoint config px py).1 (pixelPoint config px py).2

/-- fn mandelbrot(config) -> Image from src/main.rs: the pixel loop,
y (row) outer from 0 to height, x (column) inner from 0 to width,
appending the 3 bytes of each pixel to the data buffer. -/
def mandelbrot (sinf : ℚ → ℚ) (config : Config) : Image :=
  { data :=
      (List.range config.height).flatMap fun py =>
        (List.range config.width).flatMap fun px =>
          (pixelColor sinf config px py).toList
    width := config.width
    height := config.height }

/-- str::trim on a list of characters: whitespace stripped from both
ends. -/
def trimChars (cs : List Char) : List Char :=
  ((cs.dropWhile Char.isWhitespace).reverse.dropWhile Char.isWhitespace).reverse

/-- str::split with separator comma: every comma ends a piece, empty
pieces included; the empty string yields one empty piece. -/
def splitOnComma : List Char → List (List Char)
  | [] => [[]]
  | c :: rest =>
    if c = ',' then
      [] :: splitOnComma rest
    else
      match splitOnComma rest with
      | [] => [[c]]
      | piece :: pieces => (c :: piece) :: pieces

/-- Digit value of a character, none for a non-digit. -/
def digitVal (c : Char) : Option Nat :=
  if c.isDigit then some (c.toNat - '0'.toNat) else none

/-- Digit-accumulation loop of u8::from_str: fails on a non-digit
character or when the accumulated value leaves the u8 range. -/
def parseU8Go : Nat → List Char → Option Nat
  | acc, [] => some acc
  | acc, c :: rest =>
    match digitVal c with
    | none => none
    | some d =>
      let acc2 := acc * 10 + d
      if 255 < acc2 then none else parseU8Go acc2 rest

/-- u8::from_str as used by color.trim().parse::<u8>(): an optional
leading plus sign, then one or more digits, value at most 255. -/
def parseU8 (cs : List Char) : Option Nat :=
  let cs2 := match cs with
    | c :: rest => if c = '+' then rest else c :: rest
    | [] => []
  match cs2 with
  | [] => none
  | _ => parseU8Go 0 cs2

/-- out[index] = v for a color and a channel index (the Rust code only
reaches this with index < 3). -/
def setChannel (c : Color) (index v : Nat) : Color :=
  match index with
  | 0 => ⟨v, c.g, c.b⟩
  | 1 => ⟨c.r, v, c.b⟩
  | _ => ⟨c.r, c.g, v⟩

/-- The for loop of fn parse_color over the comma-separated pieces with
their indices: the index bound is checked before the piece is parsed,
exactly as in the source (error messages are abbreviated, their
interpolated parts dropped). -/
def parseColorGo : Nat → Color → List (List Char) → Except String Color
  | _, out, [] => Except.ok out
  | index, out, piece :: rest =>
    if 3 ≤ index then
      Except.error "not enough color values"
    else
      match parseU8 (trimChars piece) with
      | none => Except.error "cant parse"
      | some v => parseColorGo (index + 1) (setChannel out index v) rest

/-- fn parse_color(arg) -> Result from src/main.rs: missing argument is
an error; otherwise the argument is split on commas and the pieces fill
the channels of an all-zero color in order. -/
def parse_color (arg : Option (List Char)) : Except String Color :=
  match arg with
  | none => Except.error "no argument supplied"
  | some s => parseColorGo 0 ⟨0, 0, 0⟩ (splitOnComma s)

/-- Per-channel interpolation following the words of claim C6: the
channel is c0 plus the product (c1 - c0) * amount truncated toward zero,
and the result wraps modulo 256 (no intermediate i16 saturation).  This
definition follows the claim, not the source; it is compared against
v_lerp. -/
def vLerpClaimed (a b : Nat) (amount : ℚ) : Nat :=
  (((a : Int) + ratTrunc ((((b : Int) - (a : Int) : Int) : ℚ) * amount)) % 256).toNat

/-- Color interpolation following the words of claim C6 (see
vLerpClaimed). -/
def lerpClaimed (c0 c1 : Color) (amount : ℚ) : Color :=
  ⟨vLerpClaimed c0.r c1.r amount, vLerpClaimed c0.g c1.g amount,
   vLerpClaimed c0.b c1.b amount⟩

/-- Saturation to the i16 range written as explicit case analysis; used
to state the amended claim C6 in a form independent of the min/max
formulation used in f64ToI16. -/
def i16Clamp (z : Int) : Int :=
  if z < -32768 then -32768 else if 32767 < z then 32767 else z

/-- Per-channel interpolation following the amended claim C6: c0 plus
the product (c1 - c0) * amount truncated toward zero and saturated to
the i16 range, the sum then wrapped modulo 256. -/
def vLerpAmended (a b : Nat) (amount : ℚ) : Nat :=
  (((a : Int) + i16Clamp (ratTrunc ((((b : Int) - (a : Int) : Int) : ℚ) * amount))) % 256).toNat

/-- Color interpolation following the amended claim C6. -/
def lerpAmended (c0 c1 : Color) (amount : ℚ) : Color :=
  ⟨vLerpAmended c0.r c1.r amount, vLerpAmended c0.g c1.g amount,
   vLerpAmended c0.b c1.b amount⟩

/-- One channel of lerp does not wrap: the i16-level value is already in
u8 range, and the final byte is exactly that value. -/
def noWrapChannel (a b : Nat) (amount : ℚ) : Prop :=
  0 ≤ vLerpInt a b amount ∧ vLerpInt a b amount ≤ 255 ∧
    (v_lerp a b amount : Int) = vLerpInt a b amount

/-- No channel of lerp wraps at this amount. -/
def lerpNoWrap (c0 c1 : Color) (amount : ℚ) : Prop :=
  noWrapChannel c0.r c1.r amount ∧ noWrapChannel c0.g c1.g amount ∧
    noWrapChannel c0.b c1.b amount

/-- A small concrete configuration (1 by 1 image, one iteration, the
default colors of Config::parse) used to instantiate theorems with
hypotheses. -/
def sampleConfig : Config :=
  { x := 0, y := 0, zoom := 1, iterations := 1, width := 1, height := 1,
    mult := 1, outside_color := ⟨0, 0, 0⟩, inside_color := ⟨255, 0, 0⟩,
    second_color := ⟨255, 0, 255⟩, filename := "output.png" }

/-! ## Helper lemmas about truncation and interpolation -/

lemma ratTrunc_le {q : ℚ} {z : Int} (h : q ≤ (z : ℚ)) : ratTrunc q ≤ z := by
  unfold ratTrunc
  split
  · calc ⌊q⌋ ≤ ⌊(z : ℚ)⌋ := Int.floor_mono h
    _ = z := Int.floor_intCast z
  · calc ⌈q⌉ ≤ ⌈(z : ℚ)⌉ := Int.ceil_mono h
    _ = z := Int.ceil_intCast z

lemma le_ratTrunc {q : ℚ} {z : Int} (h : (z : ℚ) ≤ q) : z ≤ ratTrunc q := by
  unfold ratTrunc
  split
  · calc z = ⌊(z : ℚ)⌋ := (Int.floor_intCast z).symm
    _ ≤ ⌊q⌋ := Int.floor_mono h
  · have h1 : (z : ℚ) ≤ (⌈q⌉ : ℚ) := le_trans h (Int.le_ceil q)
    exact_mod_cast h1

lemma ratTrunc_intCast (z : Int) : ratTrunc ((z : Int) : ℚ) = z :=
  le_antisymm (ratTrunc_le le_rfl) (le_ratTrunc le_rfl)

lemma f64ToI16_of_bounds {q : ℚ} (h1 : -32768 ≤ ratTrunc q)
    (h2 : ratTrunc q ≤ 32767) : f64ToI16 q = ratTrunc q := by
  unfold f64ToI16
  rw [min_eq_right h2, max_eq_right h1]

lemma v_lerp_zero (a b : Nat) (ha : a < 256) : v_lerp a b 0 = a := by
  have ht : ratTrunc ((((b : Int) - (a : Int) : Int) : ℚ) * 0) = 0 := by
    rw [mul_zero]
    exact_mod_cast ratTrunc_intCast 0
  have hv : vLerpInt a b 0 = (a : Int) := by
    unfold vLerpInt
    rw [f64ToI16_of_bounds (by rw [ht]; norm_num) (by rw [ht]; norm_num), ht,
      add_zero]
  unfold v_lerp
  rw [hv, Int.emod_eq_of_lt (by positivity) (by exact_mod_cast ha)]
  exact Int.toNat_natCast a

lemma v_lerp_one (a b : Nat) (ha : a < 256) (hb : b < 256) :
    v_lerp a b 1 = b := by
  have ht : ratTrunc ((((b : Int) - (a : Int) : Int) : ℚ) * 1) =
      (b : Int) - (a : Int) := by
    rw [mul_one]
    exact ratTrunc_intCast _
  have hv : vLerpInt a b 1 = (b : Int) := by
    unfold vLerpInt
    rw [f64ToI16_of_bounds (by rw [ht]; omega) (by rw [ht]; omega), ht]
    ring
  unfold v_lerp
  rw [hv, Int.emod_eq_of_lt (by positivity) (by exact_mod_cast hb)]
  exact Int.toNat_natCast b

lemma lerp_zero (c0 c1 : Color) (h : c0.isByte) : lerp c0 c1 0 = c0 := by
  obtain ⟨h1, h2, h3⟩ := h
  cases c0
  simp only [lerp, Color.mk.injEq]
  exact ⟨v_lerp_zero _ _ h1, v_lerp_zero _ _ h2, v_lerp_zero _ _ h3⟩

lemma lerp_one (c0 c1 : Color) (h0 : c0.isByte) (h1 : c1.isByte) :
    lerp c0 c1 1 = c1 := by
  obtain ⟨g1, g2, g3⟩ := h0
  obtain ⟨hr, hg, hb⟩ := h1
  cases c1
  simp only [lerp, Color.mk.injEq]
  exact ⟨v_lerp_one _ _ g1 hr, v_lerp_one _ _ g2 hg, v_lerp_one _ _ g3 hb⟩

/-- C7: for all byte triples c0 and c1, lerp at amount 0 is exactly c0
and lerp at amount 1 is exactly c1, in every channel. -/
theorem lerp_endpoints (c0 c1 : Color) (h0 : c0.isByte) (h1 : c1.isByte) :
    lerp c0 c1 0 = c0 ∧ lerp c0 c1 1 = c1 :=
  ⟨lerp_zero c0 c1 h0, lerp_one c0 c1 h0 h1⟩

theorem lerp_endpoints_witness :
    Color.isByte ⟨10, 20, 30⟩ ∧ Color.isByte ⟨40, 5, 200⟩ ∧
      (lerp ⟨10, 20, 30⟩ ⟨40, 5, 200⟩ 0 = ⟨10, 20, 30⟩ ∧
       lerp ⟨10, 20, 30⟩ ⟨40, 5, 200⟩ 1 = ⟨40, 5, 200⟩) :=
  ⟨by decide, by decide,
   lerp_endpoints ⟨10, 20, 30⟩ ⟨40, 5, 200⟩ (by decide) (by decide)⟩

/-- C6 counterexample: at c0 = (0,0,0), c1 = (1,1,1), amount = 40000 the
claimed formula (truncate toward zero, wrap modulo 256, no intermediate
saturation) yields channel 40000 mod 256 = 64, but the code's f64-to-i16
cast saturates the product at 32767 first, so every channel is 32767 mod
256 = 255. -/
theorem lerp_claim_counterexample :
    lerp ⟨0, 0, 0⟩ ⟨1, 1, 1⟩ 40000 = ⟨255, 255, 255⟩ ∧
      lerpClaimed ⟨0, 0, 0⟩ ⟨1, 1, 1⟩ 40000 = ⟨64, 64, 64⟩ ∧
      lerp ⟨0, 0, 0⟩ ⟨1, 1, 1⟩ 40000 ≠ lerpClaimed ⟨0, 0, 0⟩ ⟨1, 1, 1⟩ 40000 := by
  have h1 : lerp ⟨0, 0, 0⟩ ⟨1, 1, 1⟩ 40000 = ⟨255, 255, 255⟩ := by
    norm_num [lerp, v_lerp, vLerpInt, f64ToI16, ratTrunc]
    decide
  have h2 : lerpClaimed ⟨0, 0, 0⟩ ⟨1, 1, 1⟩ 40000 = ⟨64, 64, 64⟩ := by
    norm_num [lerpClaimed, vLerpClaimed, ratTrunc]
    decide
  refine ⟨h1, h2, ?_⟩
  rw [h1, h2]
  decide

/-- C6 (amended): lerp computes each channel independently as c0 plus
(c1 - c0) * amount, the product truncated toward zero and saturated to
the signed 16-bit range when converted back to an integer, the
per-channel result then wrapping modulo 256; amount is never clamped. -/
theorem lerp_eq_amended (c0 c1 : Color) (amount : ℚ) :
    lerp c0 c1 amount = lerpAmended c0 c1 amount := by
  have hsat : ∀ z : Int, max (-32768) (min 32767 z) = i16Clamp z := by
    intro z
    unfold i16Clamp
    rcases lt_or_le z (-32768) with h | h
    · rw [if_pos h, min_eq_right (by omega), max_eq_left (by omega)]
    · rw [if_neg (by omega)]
      rcases lt_or_le 32767 z with h2 | h2
      · rw [if_pos h2, min_eq_left (by omega), max_eq_right (by omega)]
      · rw [if_neg (by omega), min_eq_right (by omega), max_eq_right (by omega)]
  have hchan : ∀ a b : Nat, v_lerp a b amount = vLerpAmended a b amount := by
    intro a b
    unfold v_lerp vLerpInt f64ToI16 vLerpAmended
    rw [hsat]
  unfold lerp lerpAmended
  rw [hchan, hchan, hchan]

lemma vLerpInt_bounds {a b : Nat} (ha : a ≤ 255) (hb : b ≤ 255) {am : ℚ}
    (h0 : 0 ≤ am) (h1 : am ≤ 1) :
    0 ≤ vLerpInt a b am ∧ vLerpInt a b am ≤ 255 := by
  set d : Int := (b : Int) - (a : Int) with hd
  have hdlo : -255 ≤ d := by omega
  have hdhi : d ≤ 255 := by omega
  rcases le_or_lt 0 d with hcase | hcase
  · have hq0 : (0 : ℚ) ≤ (d : ℚ) * am := by
      have : (0 : ℚ) ≤ (d : ℚ) := by exact_mod_cast hcase
      positivity
    have hqd : (d : ℚ) * am ≤ (d : ℚ) := by
      have hd0 : (0 : ℚ) ≤ (d : ℚ) := by exact_mod_cast hcase
      nlinarith
    have htlo : 0 ≤ ratTrunc ((d : ℚ) * am) := le_ratTrunc (by exact_mod_cast hq0)
    have hthi : ratTrunc ((d : ℚ) * am) ≤ d := ratTrunc_le hqd
    have hsat : f64ToI16 ((d : ℚ) * am) = ratTrunc ((d : ℚ) * am) :=
      f64ToI16_of_bounds (by omega) (by omega)
    unfold vLerpInt
    rw [← hd, hsat]
    omega
  · have hqd : (d : ℚ) ≤ (d : ℚ) * am := by
      have hd0 : (d : ℚ) ≤ 0 := by exact_mod_cast le_of_lt hcase
      nlinarith
    have hq0 : (d : ℚ) * am ≤ 0 := by
      have hd0 : (d : ℚ) ≤ 0 := by exact_mod_cast le_of_lt hcase
      exact mul_nonpos_of_nonpos_of_nonneg hd0 h0
    have htlo : d ≤ ratTrunc ((d : ℚ) * am) := le_ratTrunc hqd
    have hthi : ratTrunc ((d : ℚ) * am) ≤ 0 := ratTrunc_le (by exact_mod_cast hq0)
    have hsat : f64ToI16 ((d : ℚ) * am) = ratTrunc ((d : ℚ) * am) :=
      f64ToI16_of_bounds (by omega) (by omega)
    unfold vLerpInt
    rw [← hd, hsat]
    omega

lemma noWrapChannel_of_bounds {a b : Nat} (ha : a ≤ 255) (hb : b ≤ 255)
    {am : ℚ} (h0 : 0 ≤ am) (h1 : am ≤ 1) : noWrapChannel a b am := by
  obtain ⟨hlo, hhi⟩ := vLerpInt_bounds ha hb h0 h1
  refine ⟨hlo, hhi, ?_⟩
  unfold v_lerp
  rw [Int.emod_eq_of_lt hlo (by omega), Int.toNat_of_nonneg hlo]

lemma fraction_of_bounds (sinf : ℚ → ℚ) (mult dist : ℚ)
    (hs : ∀ t, |sinf t| ≤ 1) :
    0 ≤ fraction_of sinf mult dist ∧ fraction_of sinf mult dist ≤ 1 := by
  simp only [fraction_of]
  split
  · norm_num
  · exact ⟨abs_nonneg _, hs _⟩

/-- C10: when the host sine is bounded by 1 in absolute value, the blend
fraction computed by the colorizer lies in the interval from 0 to 1, and
the inner blend between the two byte-valued inside colors never wraps in
any channel. -/
theorem fraction_in_unit_and_inner_lerp_no_wrap (sinf : ℚ → ℚ)
    (mult dist : ℚ) (c0 c1 : Color) (hs : ∀ t, |sinf t| ≤ 1)
    (h0 : c0.isByte) (h1 : c1.isByte) :
    0 ≤ fraction_of sinf mult dist ∧ fraction_of sinf mult dist ≤ 1 ∧
      lerpNoWrap c0 c1 (fraction_of sinf mult dist) := by
  obtain ⟨hlo, hhi⟩ := fraction_of_bounds sinf mult dist hs
  obtain ⟨a1, a2, a3⟩ := h0
  obtain ⟨b1, b2, b3⟩ := h1
  exact ⟨hlo, hhi,
    noWrapChannel_of_bounds (by omega) (by omega) hlo hhi,
    noWrapChannel_of_bounds (by omega) (by omega) hlo hhi,
    noWrapChannel_of_bounds (by omega) (by omega) hlo hhi⟩

theorem fraction_in_unit_and_inner_lerp_no_wrap_witness :
    0 ≤ fraction_of (fun _ => 0) 1 0 ∧ fraction_of (fun _ => 0) 1 0 ≤ 1 ∧
      lerpNoWrap ⟨255, 0, 0⟩ ⟨255, 0, 255⟩ (fraction_of (fun _ => 0) 1 0) :=
  fraction_in_unit_and_inner_lerp_no_wrap (fun _ => 0) 1 0
    ⟨255, 0, 0⟩ ⟨255, 0, 255⟩ (fun t => by norm_num) (by decide) (by decide)

/-- C8: a pixel the evaluator reports as bounded with distance 0 is
colored exactly with the config's inside color: the sine of 0 is 0, so
the fraction is 0 and the inner blend returns its first color
unchanged. -/
theorem bounded_zero_distance_gives_inside_color (sinf : ℚ → ℚ)
    (config : Config) (x y : ℚ) (hsin : sinf 0 = 0)
    (hb : config.inside_color.isByte)
    (hpd : pixel_distance config.iterations x y = (true, 0)) :
    mandel_pixel sinf config x y = config.inside_color := by
  unfold mandel_pixel
  rw [hpd]
  have hfr : fraction_of sinf config.mult 0 = 0 := by
    unfold fraction_of
    rw [zero_mul, hsin]
    norm_num
  simp only [hfr]
  rw [lerp_zero _ _ hb]
  simp

theorem bounded_zero_distance_gives_inside_color_witness :
    mandel_pixel (fun _ => 0) sampleConfig 0 0 = sampleConfig.inside_color :=
  bounded_zero_distance_gives_inside_color (fun _ => 0) sampleConfig 0 0 rfl
    (by decide)
    (by norm_num [sampleConfig, pixel_distance, pixelDistanceGo, distance])

/-! ## Escape-time evaluator: loop invariant -/

lemma orbit_succ_fst (x y : ℚ) (i : Nat) :
    (orbit x y (i + 1)).1 =
      (orbit x y i).1 * (orbit x y i).1 + x - (orbit x y i).2 * (orbit x y i).2 := by
  simp [orbit, step]

lemma orbit_succ_snd (x y : ℚ) (i : Nat) :
    (orbit x y (i + 1)).2 = 2 * (orbit x y i).1 * (orbit x y i).2 + y := by
  simp [orbit, step]

lemma pixelDistanceGo_spec (N : Nat) (x y : ℚ) :
    ∀ fuel i, fuel + i = N →
      (∀ j, j ≤ i → sqMag (orbit x y j) ≤ 4) →
      ((∀ d, pixelDistanceGo N x y fuel i (orbit x y i).1 (orbit x y i).2 =
            (false, d) →
          ∃ k, k < N ∧ d = (k : ℚ) / (N : ℚ) ∧ 4 < sqMag (orbit x y (k + 1)) ∧
            ∀ j, j ≤ k → sqMag (orbit x y j) ≤ 4) ∧
       (∀ m, pixelDistanceGo N x y fuel i (orbit x y i).1 (orbit x y i).2 =
            (true, m) →
          m = sqMag (orbit x y N) ∧ m ≤ 4)) := by
  intro fuel
  induction fuel with
  | zero =>
    intro i hiN hinv
    have hi : i = N := by omega
    constructor
    · intro d hd
      simp [pixelDistanceGo] at hd
    · intro m hm
      simp only [pixelDistanceGo, Prod.mk.injEq, true_and] at hm
      rw [hi] at hm
      refine ⟨hm.symm, ?_⟩
      rw [← hm]
      exact hinv N (by omega)
  | succ fuel ih =>
    intro i hiN hinv
    have hgo : pixelDistanceGo N x y (fuel + 1) i (orbit x y i).1 (orbit x y i).2 =
        if distance (orbit x y (i + 1)).1 (orbit x y (i + 1)).2 > 4 then
          (false, (i : ℚ) / (N : ℚ))
        else
          pixelDistanceGo N x y fuel (i + 1) (orbit x y (i + 1)).1
            (orbit x y (i + 1)).2 := by
      rw [orbit_succ_fst, orbit_succ_snd]
      rfl
    by_cases hesc : distance (orbit x y (i + 1)).1 (orbit x y (i + 1)).2 > 4
    · rw [hgo, if_pos hesc]
      constructor
      · intro d hd
        simp only [Prod.mk.injEq, true_and] at hd
        exact ⟨i, by omega, hd.symm, hesc, hinv⟩
      · intro m hm
        simp at hm
    · rw [hgo, if_neg hesc]
      have hinv2 : ∀ j, j ≤ i + 1 → sqMag (orbit x y j) ≤ 4 := by
        intro j hj
        rcases Nat.lt_or_ge j (i + 1) with hlt | hge
        · exact hinv j (by omega)
        · have : j = i + 1 := by omega
          subst this
          exact le_of_not_lt hesc
      exact ih (i + 1) (by omega) hinv2

/-- C1: the escape-time evaluator iterates z to z squared plus c from
zero, the new real part computed from the old imaginary part (this is
the orbit of the step function); if the squared magnitude first exceeds
4 at 0-based iteration index i (checked after the update), it returns
(false, i / N) with i / N in the interval from 0 inclusive to 1
exclusive; if it never exceeds 4 in N iterations, it returns (true, m)
with m the final squared magnitude and m at most 4. -/
theorem pixel_distance_correct (N : Nat) (x y : ℚ) (hN : 0 < N) :
    (∀ d, pixel_distance N x y = (false, d) →
        0 ≤ d ∧ d < 1 ∧
          ∃ i, i < N ∧ d = (i : ℚ) / (N : ℚ) ∧
            4 < sqMag (orbit x y (i + 1)) ∧
            ∀ j, j ≤ i → sqMag (orbit x y j) ≤ 4) ∧
    (∀ m, pixel_distance N x y = (true, m) →
        m = sqMag (orbit x y N) ∧ m ≤ 4) := by
  have h0 : ∀ j, j ≤ 0 → sqMag (orbit x y j) ≤ 4 := by
    intro j hj
    have : j = 0 := by omega
    subst this
    norm_num [sqMag, orbit, distance]
  have hmain := pixelDistanceGo_spec N x y N 0 (by omega) h0
  have hpd : pixel_distance N x y =
      pixelDistanceGo N x y N 0 (orbit x y 0).1 (orbit x y 0).2 := rfl
  constructor
  · intro d hd
    rw [hpd] at hd
    obtain ⟨k, hkN, hdk, hkesc, hkinv⟩ := hmain.1 d hd
    have hNQ : (0 : ℚ) < (N : ℚ) := by exact_mod_cast hN
    refine ⟨?_, ?_, k, hkN, hdk, hkesc, hkinv⟩
    · rw [hdk]
      positivity
    · rw [hdk, div_lt_one hNQ]
      exact_mod_cast hkN
  · intro m hm
    rw [hpd] at hm
    exact hmain.2 m hm

theorem pixel_distance_correct_witness :
    0 < 1 ∧ ((0 : ℚ) = sqMag (orbit 0 0 1) ∧ (0 : ℚ) ≤ 4) :=
  ⟨Nat.one_pos, (pixel_distance_correct 1 0 0 Nat.one_pos).2 0
    (by norm_num [pixel_distance, pixelDistanceGo, distance])⟩

/-! ## Coordinate mapper and determinism -/

/-- C2: for every in-range pixel (px, py) the coordinate mapper produces
exactly (cx - z/2 + z * (px / width), cy - z/2 + z * (py / height)); in
particular pixel (0,0) maps to the top-left corner (cx - z/2, cy - z/2)
and the (exclusive) corner (width, height) maps to (cx + z/2, cy + z/2),
so the viewport is a square of side z centered at (cx, cy) regardless of
the aspect ratio. -/
theorem pixelPoint_formula (config : Config) (px py : Nat)
    (hx : px < config.width) (hy : py < config.height) :
    pixelPoint config px py =
      (config.x - config.zoom / 2 +
         config.zoom * ((px : ℚ) / (config.width : ℚ)),
       config.y - config.zoom / 2 +
         config.zoom * ((py : ℚ) / (config.height : ℚ))) ∧
    pixelPoint config 0 0 =
      (config.x - config.zoom / 2, config.y - config.zoom / 2) ∧
    pixelPoint config config.width config.height =
      (config.x + config.zoom / 2, config.y + config.zoom / 2) := by
  have hw : (config.width : ℚ) ≠ 0 := by
    have : 0 < config.width := by omega
    exact_mod_cast Nat.pos_iff_ne_zero.mp this
  have hh : (config.height : ℚ) ≠ 0 := by
    have : 0 < config.height := by omega
    exact_mod_cast Nat.pos_iff_ne_zero.mp this
  refine ⟨rfl, ?_, ?_⟩
  · unfold pixelPoint
    norm_num
  · unfold pixelPoint
    rw [div_self hw, div_self hh, Prod.mk.injEq]
    exact ⟨by ring, by ring⟩

theorem pixelPoint_formula_witness :
    pixelPoint sampleConfig 0 0 =
      (sampleConfig.x - sampleConfig.zoom / 2 +
         sampleConfig.zoom * (((0 : Nat) : ℚ) / (sampleConfig.width : ℚ)),
       sampleConfig.y - sampleConfig.zoom / 2 +
         sampleConfig.zoom * (((0 : Nat) : ℚ) / (sampleConfig.height : ℚ))) ∧
    pixelPoint sampleConfig 0 0 =
      (sampleConfig.x - sampleConfig.zoom / 2,
       sampleConfig.y - sampleConfig.zoom / 2) ∧
    pixelPoint sampleConfig sampleConfig.width sampleConfig.height =
      (sampleConfig.x + sampleConfig.zoom / 2,
       sampleConfig.y + sampleConfig.zoom / 2) :=
  pixelPoint_formula sampleConfig 0 0 (by decide) (by decide)

/-- C5: rendering is deterministic; two evaluations of the render
function on the same config and host sine yield byte-identical pixel
buffers. -/
theorem mandelbrot_deterministic (sinf : ℚ → ℚ) (config : Config)
    (b1 b2 : Image) (h1 : b1 = mandelbrot sinf config)
    (h2 : b2 = mandelbrot sinf config) : b1.data = b2.data := by
  rw [h1, h2]

theorem mandelbrot_deterministic_witness :
    (mandelbrot (fun _ => 0) sampleConfig).data =
      (mandelbrot (fun _ => 0) sampleConfig).data :=
  mandelbrot_deterministic (fun _ => 0) sampleConfig _ _ rfl rfl

/-! ## Pixel buffer layout -/

lemma flatMap_length_const {α β : Type} (l : List α) (f : α → List β) (k : Nat)
    (h : ∀ a ∈ l, (f a).length = k) : (l.flatMap f).length = l.length * k := by
  induction l with
  | nil => simp
  | cons a l ih =>
    simp only [List.flatMap_cons, List.length_append, List.length_cons]
    rw [h a (by simp), ih (fun b hb => h b (by simp [hb]))]
    ring

lemma flatMap_drop_const {α β : Type} (l : List α) (f : α → List β) (k : Nat)
    (h : ∀ a ∈ l, (f a).length = k) :
    ∀ i (hi : i < l.length), (l.flatMap f).drop (k * i) =
      f (l.get ⟨i, hi⟩) ++ (l.drop (i + 1)).flatMap f := by
  induction l with
  | nil =>
    intro i hi
    simp at hi
  | cons a l ih =>
    intro i hi
    cases i with
    | zero => simp
    | succ i =>
      have hk : k * (i + 1) = (f a).length + k * i := by
        rw [h a (by simp)]
        ring
      rw [List.flatMap_cons, hk, ← List.drop_drop, List.drop_left]
      have hil : i < l.length := by simpa using hi
      rw [ih (fun b hb => h b (by simp [hb])) i hil]
      rfl

/-- The data buffer of the rendered image has exactly width * height * 3
bytes. -/
lemma mandelbrot_data_length (sinf : ℚ → ℚ) (config : Config) :
    (mandelbrot sinf config).data.length =
      config.width * config.height * 3 := by
  have hrowlen : ∀ py ∈ List.range config.height,
      ((List.range config.width).flatMap
        fun px => (pixelColor sinf config px py).toList).length =
        config.width * 3 := by
    intro py _
    rw [flatMap_length_const (List.range config.width)
      (fun px => (pixelColor sinf config px py).toList) 3 (fun a _ => rfl),
      List.length_range]
  show ((List.range config.height).flatMap fun py =>
      (List.range config.width).flatMap
        fun px => (pixelColor sinf config px py).toList).length = _
  rw [flatMap_length_const _ _ (config.width * 3) hrowlen, List.length_range]
  ring

/-- C3: the output buffer has byte length width * height * 3, and the 3
bytes at offset 3 * (row * width + col) are exactly the RGB triple
computed for the pixel at column col and row row (row-major scan
order). -/
theorem mandelbrot_buffer_layout (sinf : ℚ → ℚ) (config : Config)
    (hw : 0 < config.width) (hh : 0 < config.height) :
    (mandelbrot sinf config).data.length =
        config.width * config.height * 3 ∧
      ∀ row col, row < config.height → col < config.width →
        ((mandelbrot sinf config).data.drop
            (3 * (row * config.width + col))).take 3 =
          (pixelColor sinf config col row).toList := by
  refine ⟨mandelbrot_data_length sinf config, ?_⟩
  intro row col hrow hcol
  have hrowlen : ∀ py ∈ List.range config.height,
      ((List.range config.width).flatMap
        fun px => (pixelColor sinf config px py).toList).length =
        config.width * 3 := by
    intro py _
    rw [flatMap_length_const (List.range config.width)
      (fun px => (pixelColor sinf config px py).toList) 3 (fun a _ => rfl),
      List.length_range]
  have hrow2 : row < (List.range config.height).length := by
    simpa using hrow
  have hcol2 : col < (List.range config.width).length := by
    simpa using hcol
  have h1 := flatMap_drop_const (List.range config.height) _
    (config.width * 3) hrowlen row hrow2
  have h2 := flatMap_drop_const (List.range config.width)
    (fun px => (pixelColor sinf config px row).toList) 3
    (fun a _ => rfl) col hcol2
  rw [List.get_range] at h1 h2
  have hoff : 3 * (row * config.width + col) =
      config.width * 3 * row + 3 * col := by ring
  show ((mandelbrot sinf config).data.drop
      (3 * (row * config.width + col))).take 3 = _
  rw [hoff, ← List.drop_drop]
  have hdata : (mandelbrot sinf config).data =
      (List.range config.height).flatMap fun py =>
        (List.range config.width).flatMap
          fun px => (pixelColor sinf config px py).toList := rfl
  rw [hdata, h1]
  rw [List.drop_append_of_le_length (by
    rw [hrowlen row (by simp [hrow])]
    omega)]
  rw [h2, List.append_assoc, List.take_left'
    (show (pixelColor sinf config col row).toList.length = 3 from rfl)]

theorem mandelbrot_buffer_layout_witness :
    ((mandelbrot (fun _ => 0) sampleConfig).data.drop
        (3 * (0 * sampleConfig.width + 0))).take 3 =
      (pixelColor (fun _ => 0) sampleConfig 0 0).toList :=
  (mandelbrot_buffer_layout (fun _ => 0) sampleConfig (by decide)
      (by decide)).2 0 0 (by decide) (by decide)

/-- C4: for a well-formed config (positive dimensions, zoom, iteration
cap) the render function is total: it produces a complete pixel buffer
of the full size with the config's dimensions, and every divisor it
feeds to a division (width, height, and the iteration cap in the escape
branch) is nonzero. -/
theorem mandelbrot_total (sinf : ℚ → ℚ) (config : Config)
    (hw : 0 < config.width) (hh : 0 < config.height)
    (hz : 0 < config.zoom) (hi : 0 < config.iterations) :
    (mandelbrot sinf config).width = config.width ∧
      (mandelbrot sinf config).height = config.height ∧
      (mandelbrot sinf config).data.length =
        config.width * config.height * 3 ∧
      (config.width : ℚ) ≠ 0 ∧ (config.height : ℚ) ≠ 0 ∧
      (config.iterations : ℚ) ≠ 0 := by
  refine ⟨rfl, rfl, mandelbrot_data_length sinf config, ?_, ?_, ?_⟩
  · exact_mod_cast Nat.pos_iff_ne_zero.mp hw
  · exact_mod_cast Nat.pos_iff_ne_zero.mp hh
  · exact_mod_cast Nat.pos_iff_ne_zero.mp hi

theorem mandelbrot_total_witness :
    (mandelbrot (fun _ => 0) sampleConfig).width = sampleConfig.width ∧
      (mandelbrot (fun _ => 0) sampleConfig).height = sampleConfig.height ∧
      (mandelbrot (fun _ => 0) sampleConfig).data.length =
        sampleConfig.width * sampleConfig.height * 3 ∧
      (sampleConfig.width : ℚ) ≠ 0 ∧ (sampleConfig.height : ℚ) ≠ 0 ∧
      (sampleConfig.iterations : ℚ) ≠ 0 :=
  mandelbrot_total (fun _ => 0) sampleConfig (by decide) (by decide)
    (by norm_num [sampleConfig]) (by decide)

/-! ## Color argument parsing -/

lemma parseColorGo_cons (index : Nat) (out : Color) (p : List Char)
    (rest : List (List Char)) :
    parseColorGo index out (p :: rest) =
      if 3 ≤ index then Except.error "not enough color values"
      else
        match parseU8 (trimChars p) with
        | none => Except.error "cant parse"
        | some v => parseColorGo (index + 1) (setChannel out index v) rest := by
  rfl

lemma parseColorGo_error_of_long :
    ∀ (l : List (List Char)) (index : Nat) (out : Color), l ≠ [] →
      3 < index + l.length →
      ∃ e, parseColorGo index out l = Except.error e := by
  intro l
  induction l with
  | nil =>
    intro index out hne _
    exact absurd rfl hne
  | cons p rest ih =>
    intro index out _ hlen
    rw [parseColorGo_cons]
    by_cases hidx : 3 ≤ index
    · exact ⟨"not enough color values", by rw [if_pos hidx]⟩
    · rw [if_neg hidx]
      rcases hp : parseU8 (trimChars p) with _ | v
      · exact ⟨"cant parse", rfl⟩
      · have hrest : rest ≠ [] := by
          intro hnil
          subst hnil
          simp only [List.length_cons, List.length_nil] at hlen
          omega
        exact ih (index + 1) (setChannel out index v) hrest (by
          simp only [List.length_cons] at hlen ⊢
          omega)

/-- C9 counterexample: the argument string with characters 1 comma 2 has
two comma-separated components (not three), yet parse_color accepts it,
filling the missing blue channel with 0. -/
theorem parse_color_claim_counterexample :
    (splitOnComma ['1', ',', '2']).length = 2 ∧
      parse_color (some ['1', ',', '2']) = Except.ok ⟨1, 2, 0⟩ :=
  ⟨rfl, rfl⟩

/-- C9 (amended): a color argument with more than 3 comma-separated
components is always rejected by parse_color (a component count below 3
is accepted when the given components parse, the missing channels
defaulting to 0). -/
theorem parse_color_error_of_too_many (cs : List Char)
    (h : 3 < (splitOnComma cs).length) :
    ∃ e, parse_color (some cs) = Except.error e := by
  unfold parse_color
  refine parseColorGo_error_of_long _ 0 _ ?_ (by omega)
  intro hnil
  rw [hnil] at h
  simp at h

theorem parse_color_error_of_too_many_witness :
    3 < (splitOnComma ['1', ',', '2', ',', '3', ',', '4']).length ∧
      ∃ e, parse_color (some ['1', ',', '2', ',', '3', ',', '4']) =
        Except.error e :=
  ⟨by decide, parse_color_error_of_too_many _ (by decide)⟩

end Mandel
